import Mathlib

/-!
Verification development for the Crawler4AI-to-markdown crawler
(`run.py` and `run-private.py`).

Python strings are embedded as `List Char` (named `Str`); Python sets and
dicts are embedded as lists with explicit membership / key-uniqueness
reasoning.  Every definition is translated from the corresponding source
function; stdlib calls (`urllib.parse.urljoin`, `urlparse`, `urldefrag`,
`os.path.relpath`, `os.path.join`, `pathlib.Path`) are modelled for the
well-formed http(s) URLs and POSIX paths the crawler manipulates.
-/

/-- Embedding of a Python `str`: a list of characters. -/
abbrev Str := List Char

/-- Coerce a Lean string literal into the `Str` embedding. -/
def str (s : String) : Str := s.toList

/-- Boolean prefix test, `a` a prefix of `b` (Python `str.startswith`). -/
def pfx : Str → Str → Bool
  | [], _ => true
  | _ :: _, [] => false
  | a :: as, b :: bs => a = b && pfx as bs

/-- Boolean suffix test (Python `str.endswith`). -/
def sfx (a b : Str) : Bool := pfx a.reverse b.reverse

/-- Substring test (Python `pat in s`). -/
def containsL (s pat : Str) : Bool := s.tails.any (fun t => pfx pat t)

/-- Split at the first occurrence of `pat`: returns the part before and the
part after, or `none` when `pat` does not occur. -/
def breakOn (pat : Str) : Str → Option (Str × Str)
  | [] => if pat = [] then some ([], []) else none
  | c :: rest =>
    if pfx pat (c :: rest) then some ([], (c :: rest).drop pat.length)
    else match breakOn pat rest with
      | some (a, b) => some (c :: a, b)
      | none => none

/-- All occurrences of `pat` replaced by `repl` (Python `str.replace`),
worker loop: scans left to right, with a structural fuel argument (each
step consumes at least one character, so `s.length` fuel always
suffices). -/
def replaceFuel (pat repl : Str) : Nat → Str → Str
  | 0, s => s
  | _ + 1, [] => []
  | fuel + 1, c :: rest =>
    if 0 < pat.length ∧ pfx pat (c :: rest) = true then
      repl ++ replaceFuel pat repl fuel (rest.drop (pat.length - 1))
    else c :: replaceFuel pat repl fuel rest

/-- All occurrences of `pat` replaced by `repl` (Python `str.replace`).
The crawler only calls this with the nonempty base URL as `pat`. -/
def replaceAllL (pat repl s : Str) : Str :=
  if pat = [] then s else replaceFuel pat repl s.length s

/-- Python `str.strip('/')`: remove leading and trailing slashes. -/
def stripSlashes (s : Str) : Str :=
  ((s.dropWhile (fun c => c = '/')).reverse.dropWhile (fun c => c = '/')).reverse

/-- `urllib.parse.urldefrag(u)[0]` / Python `u.split('#')[0]`: the URL up to
(not including) the first `#`. -/
def defragL (u : Str) : Str := u.takeWhile (fun c => c ≠ '#')

/-- `urllib.parse.urldefrag(u)[1]`: everything after the first `#`. -/
def fragOf (u : Str) : Str := (u.dropWhile (fun c => c ≠ '#')).drop 1

/-- The scheme-ish leading run of a URL string: characters before the first
colon. -/
def schemeL (u : Str) : Str := u.takeWhile (fun c => c ≠ ':')

/-- Valid RFC 3986 scheme character (after the leading letter). -/
def isSchemeChar (c : Char) : Bool := c.isAlphanum || c = '+' || c = '-' || c = '.'

/-- Whether the leading colon-delimited run of `u` is a syntactically valid
scheme. -/
def validScheme : Str → Bool
  | [] => false
  | c :: cs => c.isAlpha && cs.all isSchemeChar

/-- The scheme of a URL reference, when it has one
(`urllib.parse.urlparse(u).scheme`, modelled for well-formed references). -/
def schemeOf? (u : Str) : Option Str :=
  let pre := u.takeWhile (fun c => c ≠ ':')
  if pre.length < u.length ∧ validScheme pre = true then some pre else none

/-- `urllib.parse.urlparse(u).netloc`, modelled for the URL strings the
crawler handles: the host part after `://` (or after a leading `//`),
up to the first `/`, `?` or `#`; empty when the reference has no authority. -/
def netlocL (u : Str) : Str :=
  match breakOn (str "://") u with
  | some (_, rest) => rest.takeWhile (fun c => c ≠ '/' ∧ c ≠ '?' ∧ c ≠ '#')
  | none =>
    if pfx (str "//") u then (u.drop 2).takeWhile (fun c => c ≠ '/' ∧ c ≠ '?' ∧ c ≠ '#')
    else []

/-- Everything of `u` after `scheme://netloc` (path, query, fragment). -/
def afterNetloc (u : Str) : Str :=
  match breakOn (str "://") u with
  | some (_, rest) => rest.dropWhile (fun c => c ≠ '/' ∧ c ≠ '?' ∧ c ≠ '#')
  | none => u

/-- The `scheme://netloc` part of `u`. -/
def schemeNetlocOf (u : Str) : Str := u.take (u.length - (afterNetloc u).length)

/-- The path component of `u` (no query, no fragment). -/
def pathOf (u : Str) : Str := (afterNetloc u).takeWhile (fun c => c ≠ '?' ∧ c ≠ '#')

/-- Split a string at `/` separators (Python `str.split('/')` keeps empty
segments; they are filtered by the consumers that need it). -/
def splitOnChar (sep : Char) : Str → List Str
  | [] => [[]]
  | c :: rest =>
    if c = sep then [] :: splitOnChar sep rest
    else match splitOnChar sep rest with
      | [] => [[c]]
      | seg :: segs => (c :: seg) :: segs

/-- Join path segments with `/`. -/
def joinWith (sep : Char) : List Str → Str
  | [] => []
  | [seg] => seg
  | seg :: segs => seg ++ sep :: joinWith sep segs

/-- Dot-segment removal over already-split path segments (part of the
`urljoin` model). -/
def rdsSegs (segs : List Str) : List Str :=
  segs.foldl
    (fun acc seg =>
      if seg = str "." then acc
      else if seg = str ".." then acc.dropLast
      else acc ++ [seg])
    []

/-- Dot-segment removal on an absolute path string (part of the `urljoin`
model; the crawler's URLs carry no dot segments, where this is the
identity on the split path). -/
def normPathAbs (p : Str) : Str :=
  let q := p.takeWhile (fun c => c ≠ '?' ∧ c ≠ '#')
  let qf := p.dropWhile (fun c => c ≠ '?' ∧ c ≠ '#')
  let segs := (splitOnChar '/' q).filter (fun s => s ≠ [])
  str "/" ++ joinWith '/' (rdsSegs segs) ++ qf

/-- Drop the last path segment, keeping the trailing `/`
(the RFC 3986 "merge" step of `urljoin`). -/
def stripLastSeg (p : Str) : Str :=
  (p.reverse.dropWhile (fun c => c ≠ '/')).reverse

/-- Resolve a scheme-less reference `ref` against `base`
(the tail of the `urljoin` model). -/
def resolveRef (base ref : Str) : Str :=
  if pfx (str "//") ref then ((schemeOf? base).getD []) ++ str ":" ++ ref
  else if pfx (str "#") ref then defragL base ++ ref
  else if pfx (str "/") ref then schemeNetlocOf base ++ normPathAbs ref
  else if pfx (str "?") ref then schemeNetlocOf base ++ pathOf base ++ ref
  else schemeNetlocOf base ++ normPathAbs (stripLastSeg (pathOf base) ++ ref)

/-- Model of `urllib.parse.urljoin(base, href)` restricted to the
well-formed http(s) base URLs the crawler is configured with: a reference
carrying a different scheme is returned unchanged; a reference with the
base's scheme, and a scheme-less reference, are resolved against `base`. -/
def urljoinL (base href : Str) : Str :=
  if href = [] then base
  else
    match schemeOf? href with
    | some sch =>
      if sch = (schemeOf? base).getD [] then resolveRef base (href.drop (sch.length + 1))
      else href
    | none => resolveRef base href

/-- Static configuration of `_normalize_url`: the crawler's base URL, the
base domain computed from it (`urlparse(base_url).netloc`), and the
optional exclusion regex, embedded as its matching function. -/
structure NormCfg where
  baseUrl : Str
  baseDomain : Str
  exclude : Option (Str → Bool)

/-- `PrivateDocumentationCrawler._normalize_url` (run-private.py:143-170):
reject empty and `#`/`mailto:`/`tel:`/`javascript:` hrefs, resolve against
the referencing page, reject foreign hosts, URLs outside the base-URL
prefix and exclusion-pattern matches, and return the resolved URL with the
fragment stripped. -/
def privNormalizeUrl (cfg : NormCfg) (href base : Str) : Option Str :=
  if href = [] ∨ pfx (str "#") href = true ∨ pfx (str "mailto:") href = true ∨
      pfx (str "tel:") href = true ∨ pfx (str "javascript:") href = true then none
  else if netlocL (urljoinL base href) ≠ cfg.baseDomain then none
  else if pfx cfg.baseUrl (urljoinL base href) = false then none
  else if cfg.exclude.elim false (fun p => p (urljoinL base href)) = true then none
  else some (defragL (urljoinL base href))

/-- `DocumentationCrawler._normalize_url` (run.py:98-109): an absolute
http(s) href is accepted (defragmented) whenever its host matches the base
domain; any other href is resolved against the page and accepted
(defragmented) whenever the resolution extends the base URL. -/
def runPyNormalizeUrl (baseUrl baseDomain : Str) (href base : Str) : Option Str :=
  if pfx (str "http://") href = true ∨ pfx (str "https://") href = true then
    if netlocL href ≠ baseDomain then none else some (defragL href)
  else if pfx baseUrl (urljoinL base href) = false then none
  else some (defragL (urljoinL base href))

/-- The character class `[<>:"/\\|?*]` of the `re.sub` in
`PrivateDocumentationCrawler._get_filename` (run-private.py:87). -/
def unsafeChars : List Char := ['<', '>', ':', '"', '/', '\\', '|', '?', '*']

/-- `re.sub(r'[<>:"/\\|?*]', '_', s)`: filesystem-unsafe characters become
underscores. -/
def sanitize (s : Str) : Str := s.map (fun c => if c ∈ unsafeChars then '_' else c)

/-- `pathlib.Path(s).name` for the relative POSIX paths the crawler builds:
the part after the last `/`. -/
def nameOfPath (s : Str) : Str := (s.reverse.takeWhile (fun c => c ≠ '/')).reverse

/-- `PrivateDocumentationCrawler._get_filename` (run-private.py:81-101):
defragment, delete occurrences of the base URL, strip slashes, replace
unsafe characters (including `/`) with `_`, default to `index`, then
append `.md` when the name has a dot, else `<name>/index.md`. -/
def privGetFilename (baseUrl url : Str) : Str :=
  let noFrag := defragL url
  let relativePath := stripSlashes (replaceAllL baseUrl [] noFrag)
  let safePath := sanitize relativePath
  let safePath := if safePath = [] then str "index" else safePath
  if sfx (str ".md") safePath then safePath
  else if '.' ∈ nameOfPath safePath then safePath ++ str ".md"
  else safePath ++ str "/index.md"

/-- `DocumentationCrawler._get_filename` (run.py:49-54): defragment, delete
occurrences of the base URL, strip slashes, default to `index`, and always
append `.md`. -/
def runPyGetFilename (baseUrl url : Str) : Str :=
  let path := stripSlashes (replaceAllL baseUrl [] (defragL url))
  let path := if path = [] then str "index" else path
  path ++ str ".md"

/-- `pathlib.PurePosixPath` components of a relative path string: split on
`/`, dropping empty and `.` segments. -/
def pathSplit (s : Str) : List Str :=
  ((splitOnChar '/' s).filter (fun seg => seg ≠ [])).filter (fun seg => seg ≠ str ".")

/-- Length of the longest common prefix of two component lists (the common
prefix `os.path.relpath` cancels). -/
def cpl : List Str → List Str → Nat
  | a :: as, b :: bs => if a = b then cpl as bs + 1 else 0
  | _, _ => 0

/-- The component list of `os.path.relpath(target, start)`: `..` for every
`start` component past the common prefix, then the rest of `target`. -/
def relParts (target start : List Str) : List Str :=
  let k := cpl target start
  List.replicate (start.length - k) (str "..") ++ target.drop k

/-- `os.path.relpath(target, start)` on component lists, as a string. -/
def relpathL (target start : List Str) : Str :=
  let parts := relParts target start
  if parts = [] then str "." else joinWith '/' parts

/-- Interpretation of a relative component list walked from `start`:
`..` pops a component, anything else is appended.  Used to state that the
rewritten links resolve to the derived output files. -/
def resolveRel (start parts : List Str) : List Str :=
  parts.foldl (fun acc p => if p = str ".." then acc.dropLast else acc ++ [p]) start

/-- The `replacer` closure of
`PrivateDocumentationCrawler._process_markdown_links`
(run-private.py:109-129), applied to one matched markdown link
`[text](linkUrl)` of the document for `pageUrl`; `outDir` is the output
directory as a component list.  Links whose host is not the base domain
are returned unchanged; others are rewritten to the relative path from the
page's directory to the target's derived file, with the fragment
preserved. -/
def privReplacer (cfg : NormCfg) (outDir : List Str) (pageUrl text linkUrl : Str) : Str :=
  if netlocL linkUrl ≠ cfg.baseDomain then
    str "[" ++ text ++ str "](" ++ linkUrl ++ str ")"
  else
    let linkNoFrag := defragL linkUrl
    let fragment := fragOf linkUrl
    let targetFilename := privGetFilename cfg.baseUrl linkNoFrag
    let pageDir := (pathSplit (privGetFilename cfg.baseUrl pageUrl)).dropLast
    let relativeLink := relpathL (outDir ++ pathSplit targetFilename) (outDir ++ pageDir)
    str "[" ++ text ++ str "](" ++ relativeLink ++
      (if fragment ≠ [] then str "#" ++ fragment else []) ++ str ")"

/-- In-memory frontier state of `PrivateDocumentationCrawler`:
`visited_urls` (a Python set, embedded with list membership) and `queue`
(a Python dict `url → depth`, embedded as an insertion-ordered association
list). -/
structure PState where
  visited : List Str
  queue : List (Str × Nat)
deriving DecidableEq, Repr

/-- Static configuration of the private crawler: normalization config plus
`max_depth` (0 = unlimited) and `max_workers`. -/
structure PConfig where
  norm : NormCfg
  maxDepth : Nat
  maxWorkers : Nat

/-- The keys of the queue (the pending URLs). -/
def qkeys (q : List (Str × Nat)) : List Str := q.map Prod.fst

/-- Contents of the persisted state file `crawler_private_state.json`. -/
structure PSaved where
  visitedUrls : List Str
  queue : List (Str × Nat)
deriving DecidableEq, Repr

/-- `PrivateDocumentationCrawler._load_state` (run-private.py:51-66), the
successful path: restore the visited set, and restore the saved queue with
every entry whose URL is already visited filtered out. -/
def privLoadState (sv : PSaved) : PState :=
  { visited := sv.visitedUrls,
    queue := sv.queue.filter (fun p => decide (p.1 ∉ sv.visitedUrls)) }

/-- `PrivateDocumentationCrawler._save_state` (run-private.py:68-79): the
persisted snapshot is exactly the current visited set and queue. -/
def privSaveState (s : PState) : PSaved := ⟨s.visited, s.queue⟩

/-- Instrumented crawl history: the frontier state plus, for the run so
far, the URLs dispatched for fetching (those `process_url` marked visited
and removed from the queue), the URLs successfully enqueued (seed plus
queue insertions), and the entries returned across all batch selections
of the main loop (the spec's `take_batch` outputs, with repetitions). -/
structure Trace where
  state : PState
  dispatched : List Str
  enqueued : List Str
  batched : List (Str × Nat)
deriving DecidableEq, Repr

/-- One queue insertion from `process_url` (run-private.py:263-266): add
`u` at depth `d` only when it is neither visited nor already queued; a
successful insertion is recorded in `enqueued`. -/
def enqueueT (t : Trace) (u : Str) (d : Nat) : Trace :=
  if u ∉ t.state.visited ∧ u ∉ qkeys t.state.queue then
    { t with
      state := { t.state with queue := t.state.queue ++ [(u, d)] },
      enqueued := t.enqueued ++ [u] }
  else t

/-- `PrivateDocumentationCrawler.process_url` (run-private.py:182-269),
frontier effects.  The locked prologue (lines 184-193) skips visited URLs,
skips (without dequeuing) URLs beyond a nonzero `max_depth`, and otherwise
marks the URL visited and removes it from the queue; a dispatch is
recorded.  `links u` stands for the normalized links extracted from the
fetched page (empty when the fetch failed or hit a login wall); they are
enqueued at depth `d + 1` only below the depth limit (lines 259-267). -/
def processUrlT (cfg : PConfig) (links : Str → List Str) (t : Trace) (u : Str) (d : Nat) :
    Trace :=
  if u ∈ t.state.visited then t
  else if 0 < cfg.maxDepth ∧ cfg.maxDepth < d then t
  else
    let t1 : Trace :=
      { t with
        state := { visited := u :: t.state.visited,
                   queue := t.state.queue.filter (fun p => decide (p.1 ≠ u)) },
        dispatched := t.dispatched ++ [u] }
    if cfg.maxDepth = 0 ∨ d < cfg.maxDepth then
      (links u).foldl (fun acc l => enqueueT acc l (d + 1)) t1
    else t1

/-- The batch selection of the main loop (run-private.py:330-338): the
first `max_workers` queue entries, read without removing them. -/
def takeBatchT (cfg : PConfig) (t : Trace) : List (Str × Nat) :=
  t.state.queue.take cfg.maxWorkers

/-- One iteration of the `while True` crawl loop (run-private.py:329-358):
select a batch and process its entries one by one. -/
def batchStepT (cfg : PConfig) (links : Str → List Str) (t : Trace) : Trace :=
  let batch := takeBatchT cfg t
  batch.foldl (fun acc p => processUrlT cfg links acc p.1 p.2)
    { t with batched := t.batched ++ batch }

/-- The crawl loop driven to completion with `fuel` iterations: `some` of
the final trace when the queue empties in time, `none` otherwise. -/
def crawlRunT (cfg : PConfig) (links : Str → List Str) : Nat → Trace → Option Trace
  | 0, _ => none
  | fuel + 1, t =>
    if t.state.queue = [] then some t
    else crawlRunT cfg links fuel (batchStepT cfg links t)

/-- The seeding prologue of `crawl` (run-private.py:306-317): when the
queue is empty and the base URL unvisited, enqueue the base URL at depth 1
provided it passes `_normalize_url`. -/
def seedT (cfg : PConfig) (t : Trace) : Trace :=
  if t.state.queue = [] ∧ cfg.norm.baseUrl ∉ t.state.visited then
    if privNormalizeUrl cfg.norm cfg.norm.baseUrl cfg.norm.baseUrl ≠ none then
      { t with
        state := { t.state with queue := [(cfg.norm.baseUrl, 1)] },
        enqueued := t.enqueued ++ [cfg.norm.baseUrl] }
    else t
  else t

/-- The empty starting trace of a fresh (non-resumed) run. -/
def trace0 : Trace := ⟨⟨[], []⟩, [], [], []⟩

/-- A complete fresh run of `PrivateDocumentationCrawler.crawl`: seed, then
iterate batches. -/
def crawlT (cfg : PConfig) (links : Str → List Str) (fuel : Nat) : Option Trace :=
  crawlRunT cfg links fuel (seedT cfg trace0)

/-- The frontier operations a run performs after startup, for invariant
reasoning: seeding, processing one `(url, depth)` entry, and the redundant
queue pop of the retry-exhaustion path (run-private.py:227-229). -/
inductive POp where
  | seed : POp
  | process (u : Str) (d : Nat) : POp
  | retryPop (u : Str) : POp

/-- Apply one frontier operation. -/
def applyOpT (cfg : PConfig) (links : Str → List Str) (t : Trace) : POp → Trace
  | POp.seed => seedT cfg t
  | POp.process u d => processUrlT cfg links t u d
  | POp.retryPop u =>
    { t with state := { t.state with queue := t.state.queue.filter (fun p => decide (p.1 ≠ u)) } }

/-- Apply a sequence of frontier operations. -/
def applyOpsT (cfg : PConfig) (links : Str → List Str) (ops : List POp) (t : Trace) : Trace :=
  ops.foldl (applyOpT cfg links) t

/-- The visited set and the pending queue share no URL. -/
def Disj (s : PState) : Prop := ∀ u, u ∈ s.visited → u ∉ qkeys s.queue

/-- In-memory frontier state of `DocumentationCrawler` (run.py): visited
set and pending list of URLs. -/
structure RPState where
  visited : List Str
  queue : List Str
deriving DecidableEq, Repr

/-- Contents of the persisted state file `crawler_state.json` of run.py. -/
structure RPSaved where
  visitedUrls : List Str
  queue : List Str
deriving DecidableEq, Repr

/-- `DocumentationCrawler._load_state` (run.py:28-35), the successful path:
both fields are restored verbatim — pending entries already visited are
NOT filtered out. -/
def runPyLoadState (sv : RPSaved) : RPState := ⟨sv.visitedUrls, sv.queue⟩

/-- `DocumentationCrawler.process_url` (run.py:111-141), frontier effects:
skip visited URLs, otherwise mark the defragmented URL visited and enqueue
the extracted links that are neither visited nor queued.  The URL itself
was already removed from the queue by the batch selection of `crawl`
(run.py:173-176). -/
def runPyProcessUrl (links : List Str) (s : RPState) (u : Str) : RPState :=
  if u ∈ s.visited then s
  else
    links.foldl
      (fun acc l => if l ∉ acc.visited ∧ l ∉ acc.queue then { acc with queue := acc.queue ++ [l] } else acc)
      { s with visited := defragL u :: s.visited }

/-- The visited set and the pending list of run.py share no URL. -/
def RPDisj (s : RPState) : Prop := ∀ u, u ∈ s.visited → u ∉ s.queue

/-- The fields of a `crawl4ai` fetch result that `process_url` inspects. -/
structure FetchRes where
  success : Bool
  markdown : Str
  html : Str
deriving DecidableEq, Repr

/-- One `crawler.arun` attempt either returns a result or raises an
exception with a message. -/
inductive FetchOutcome where
  | res (r : FetchRes)
  | exn (msg : Str)

/-- The transient failure signature tested at run-private.py:219. -/
def transientMsg : Str := str "Target page, context or browser has been closed"

/-- Whether an exception message carries the transient browser-context
signature (`"Target page, context or browser has been closed" in
error_message`). -/
def isTransient (msg : Str) : Bool := containsL msg transientMsg

/-- `max_retries` (run-private.py:210). -/
def maxRetries : Nat := 3

/-- `retry_delay` in seconds (run-private.py:211). -/
def retryDelay : Nat := 2

/-- Outcome of the retry loop: a fetch result, or abandonment after
exhausting transient retries, or abandonment on the first non-transient
exception.  Each constructor carries the backoff delays slept so far. -/
inductive RetryOut where
  | got (r : FetchRes) (delays : List Nat)
  | abandonedTransient (delays : List Nat)
  | abandonedOther (delays : List Nat)
deriving DecidableEq, Repr

/-- The retry loop of `process_url` (run-private.py:213-236): `remaining`
attempts left, current `attempt` number, accumulated sleep delays.  A
transient exception with attempts left sleeps `retry_delay * attempt` and
retries; a transient exception on the last attempt abandons; any other
exception abandons immediately. -/
def retryGo (fetch : Nat → FetchOutcome) : Nat → Nat → List Nat → RetryOut
  | 0, _, delays => RetryOut.abandonedTransient delays
  | remaining + 1, attempt, delays =>
    match fetch attempt with
    | FetchOutcome.res r => RetryOut.got r delays
    | FetchOutcome.exn m =>
      if isTransient m then
        if 0 < remaining then
          retryGo fetch remaining (attempt + 1) (delays ++ [retryDelay * attempt])
        else RetryOut.abandonedTransient delays
      else RetryOut.abandonedOther delays

/-- The whole retry loop, starting at attempt 1 with `max_retries`
attempts available. -/
def privRetryFetch (fetch : Nat → FetchOutcome) : RetryOut := retryGo fetch maxRetries 1 []

/-- The login-wall heuristic of run-private.py:240: any of the three
marker strings occurs in the raw HTML. -/
def loginWall (html : Str) : Bool :=
  containsL html (str "Log In") || containsL html (str "Login") || containsL html (str "Sign In")

/-- Queue insertion on a bare `PState` (run-private.py:263-266). -/
def enqueueS (s : PState) (u : Str) (d : Nat) : PState :=
  if u ∉ s.visited ∧ u ∉ qkeys s.queue then { s with queue := s.queue ++ [(u, d)] } else s

/-- `PrivateDocumentationCrawler.process_url` at fetch-attempt granularity
(run-private.py:182-284).  `fetch` gives the outcome of each numbered
attempt and `extract` the normalized links of fetched HTML.  Returns the
frontier state, whether a document was written, and the backoff delays
slept.  The locked prologue, the retry loop (whose exhaustion path pops
the URL from the queue again and writes no document), the login-wall skip,
the `result.success and result.markdown` guard and the depth-gated link
enqueue are translated one-for-one. -/
def privProcessFetch (cfg : PConfig) (extract : Str → List Str) (fetch : Nat → FetchOutcome)
    (s : PState) (u : Str) (d : Nat) : PState × Bool × List Nat :=
  if u ∈ s.visited then (s, false, [])
  else if 0 < cfg.maxDepth ∧ cfg.maxDepth < d then (s, false, [])
  else
    let s1 : PState :=
      ⟨u :: s.visited, s.queue.filter (fun p => decide (p.1 ≠ u))⟩
    match privRetryFetch fetch with
    | RetryOut.abandonedTransient ds =>
      (⟨s1.visited, s1.queue.filter (fun p => decide (p.1 ≠ u))⟩, false, ds)
    | RetryOut.abandonedOther ds => (s1, false, ds)
    | RetryOut.got r ds =>
      if r.success = true ∧ r.markdown ≠ [] then
        if loginWall r.html then (s1, false, ds)
        else
          let s2 :=
            if cfg.maxDepth = 0 ∨ d < cfg.maxDepth then
              (extract r.html).foldl (fun acc l => enqueueS acc l (d + 1)) s1
            else s1
          (s2, true, ds)
      else (s1, false, ds)

theorem pfx_iff {a b : Str} : pfx a b = true ↔ ∃ t, b = a ++ t := by
  induction a generalizing b with
  | nil => simp [pfx]
  | cons c cs ih =>
    cases b with
    | nil => simp [pfx]
    | cons d ds =>
      simp only [pfx, Bool.and_eq_true, decide_eq_true_eq, ih, List.cons_append,
        List.cons.injEq]
      constructor
      · rintro ⟨h1, t, h2⟩; exact ⟨t, h1.symm, h2⟩
      · rintro ⟨t, h1, h2⟩; exact ⟨h1.symm, t, h2⟩

theorem pfx_refl (a : Str) : pfx a a = true := pfx_iff.mpr ⟨[], by simp⟩

theorem takeWhile_all {p : Char → Bool} {l : Str} (h : ∀ c ∈ l, p c = true) :
    l.takeWhile p = l := by
  induction l with
  | nil => rfl
  | cons c cs ih =>
    simp only [List.takeWhile_cons, h c (by simp)]
    simp [ih (fun x hx => h x (by simp [hx]))]

theorem takeWhile_append_all {p : Char → Bool} {pre rest : Str}
    (h : ∀ c ∈ pre, p c = true) :
    (pre ++ rest).takeWhile p = pre ++ rest.takeWhile p := by
  induction pre with
  | nil => rfl
  | cons c cs ih =>
    simp only [List.cons_append, List.takeWhile_cons, h c (by simp)]
    simp [ih (fun x hx => h x (by simp [hx]))]

theorem takeWhile_append_stop {p : Char → Bool} {pre rest : Str} {c : Char}
    (h : ∀ x ∈ pre, p x = true) (hc : p c = false) :
    (pre ++ c :: rest).takeWhile p = pre := by
  induction pre with
  | nil => simp [List.takeWhile_cons, hc]
  | cons d ds ih =>
    simp only [List.cons_append, List.takeWhile_cons, h d (by simp)]
    simp [ih (fun x hx => h x (by simp [hx]))]

theorem sanitize_no_slash (s : Str) : '/' ∉ sanitize s := by
  intro hmem
  simp only [sanitize, List.mem_map] at hmem
  obtain ⟨c, _, hc⟩ := hmem
  by_cases h : c ∈ unsafeChars
  · simp [h] at hc
  · simp only [h, if_false] at hc
    exact h (hc ▸ (by simp [unsafeChars]))

theorem nameOfPath_of_no_slash {s : Str} (h : '/' ∉ s) : nameOfPath s = s := by
  unfold nameOfPath
  rw [takeWhile_all, List.reverse_reverse]
  intro c hc
  have hcs : c ∈ s := List.mem_reverse.mp hc
  simp only [decide_eq_true_eq]
  intro heq
  exact h (heq ▸ hcs)

theorem replaceFuel_nil (pat repl : Str) (n : Nat) : replaceFuel pat repl n [] = [] := by
  cases n <;> rfl

theorem replaceAllL_self {pat : Str} (h : pat ≠ []) : replaceAllL pat [] pat = [] := by
  unfold replaceAllL
  rw [if_neg h]
  obtain ⟨c, rest, rfl⟩ : ∃ c rest, pat = c :: rest := by
    cases pat with
    | nil => exact absurd rfl h
    | cons c rest => exact ⟨c, rest, rfl⟩
  show replaceFuel (c :: rest) [] (rest.length + 1) (c :: rest) = []
  rw [replaceFuel]
  have hcond : 0 < (c :: rest).length ∧ pfx (c :: rest) (c :: rest) = true :=
    ⟨by simp, pfx_refl _⟩
  rw [if_pos hcond]
  have hnil : rest.drop ((c :: rest).length - 1) = [] := by
    apply List.drop_eq_nil_of_le; simp
  rw [hnil, replaceFuel_nil]
  rfl

theorem qkeys_append (q1 q2 : List (Str × Nat)) : qkeys (q1 ++ q2) = qkeys q1 ++ qkeys q2 :=
  List.map_append _ _ _

theorem mem_qkeys_filter {q : List (Str × Nat)} {x u : Str} :
    x ∈ qkeys (q.filter (fun p => decide (p.1 ≠ u))) ↔ x ∈ qkeys q ∧ x ≠ u := by
  simp only [qkeys, List.mem_map]
  constructor
  · rintro ⟨p, hp, rfl⟩
    have hmem := List.mem_filter.mp hp
    refine ⟨⟨p, hmem.1, rfl⟩, ?_⟩
    simpa using hmem.2
  · rintro ⟨⟨p, hp, rfl⟩, hne⟩
    exact ⟨p, List.mem_filter.mpr ⟨hp, by simpa using hne⟩, rfl⟩

theorem cpl_le (t s : List Str) : cpl t s ≤ s.length := by
  induction t generalizing s with
  | nil => cases s <;> simp [cpl]
  | cons a as ih =>
    cases s with
    | nil => simp [cpl]
    | cons b bs =>
      by_cases h : a = b
      · simp only [cpl, if_pos h, List.length_cons]
        exact Nat.succ_le_succ (ih bs)
      · simp [cpl, h]

theorem take_cpl (t s : List Str) : t.take (cpl t s) = s.take (cpl t s) := by
  induction t generalizing s with
  | nil => cases s <;> simp [cpl]
  | cons a as ih =>
    cases s with
    | nil => simp [cpl]
    | cons b bs =>
      by_cases h : a = b
      · subst h
        rw [show cpl (a :: as) (a :: bs) = cpl as bs + 1 from by simp [cpl]]
        simp only [List.take_succ_cons]
        rw [ih bs]
      · rw [show cpl (a :: as) (b :: bs) = 0 from by simp [cpl, h]]
        simp

theorem resolveRel_append (s : List Str) (a b : List Str) :
    resolveRel s (a ++ b) = resolveRel (resolveRel s a) b := by
  unfold resolveRel
  exact List.foldl_append _ _ _ _

theorem resolveRel_dotdot (n : Nat) (s : List Str) :
    resolveRel s (List.replicate n (str "..")) = s.take (s.length - n) := by
  induction n generalizing s with
  | zero => simp [resolveRel]
  | succ m ih =>
    rw [List.replicate_succ]
    show resolveRel s (str ".." :: List.replicate m (str "..")) = _
    have step : resolveRel s (str ".." :: List.replicate m (str "..")) =
        resolveRel s.dropLast (List.replicate m (str "..")) := by
      unfold resolveRel
      simp
    rw [step, ih, List.dropLast_eq_take, List.length_take, List.take_take]
    congr 1
    omega

theorem resolveRel_no_dotdot {parts : List Str} (h : ∀ p ∈ parts, p ≠ str "..") (s : List Str) :
    resolveRel s parts = s ++ parts := by
  induction parts generalizing s with
  | nil => simp [resolveRel]
  | cons p ps ih =>
    have hp : p ≠ str ".." := h p (by simp)
    show resolveRel s (p :: ps) = _
    unfold resolveRel
    simp only [List.foldl_cons, if_neg hp]
    have := ih (fun q hq => h q (by simp [hq])) (s ++ [p])
    unfold resolveRel at this
    rw [this]
    simp

theorem resolveRel_relParts {target start : List Str} (h : str ".." ∉ target) :
    resolveRel start (relParts target start) = target := by
  unfold relParts
  rw [resolveRel_append, resolveRel_dotdot]
  have hk : cpl target start ≤ start.length := cpl_le target start
  have : start.length - (start.length - cpl target start) = cpl target start := by omega
  rw [this]
  rw [resolveRel_no_dotdot]
  · rw [← take_cpl, List.take_append_drop]
  · intro p hp hpe
    exact h (hpe ▸ List.drop_subset _ _ hp)

/-- Run invariant tying the trace history to the frontier: dispatched URLs
are pairwise distinct, the visited set is exactly the dispatched set, the
successfully-enqueued set is exactly visited plus pending, and pending
keys are distinct. -/
def C1Inv (t : Trace) : Prop :=
  t.dispatched.Nodup ∧
  (∀ u, u ∈ t.state.visited ↔ u ∈ t.dispatched) ∧
  (∀ u, u ∈ t.enqueued ↔ (u ∈ t.state.visited ∨ u ∈ qkeys t.state.queue)) ∧
  (qkeys t.state.queue).Nodup

theorem enqueueT_inv {t : Trace} (h : C1Inv t) (u : Str) (d : Nat) :
    C1Inv (enqueueT t u d) := by
  obtain ⟨h1, h2, h3, h4⟩ := h
  unfold enqueueT
  by_cases hc : u ∉ t.state.visited ∧ u ∉ qkeys t.state.queue
  · rw [if_pos hc]
    have hq : qkeys (t.state.queue ++ [(u, d)]) = qkeys t.state.queue ++ [u] := by
      rw [qkeys_append]; rfl
    refine ⟨h1, h2, ?_, ?_⟩
    · intro x
      rw [show ({ t with
            state := { t.state with queue := t.state.queue ++ [(u, d)] },
            enqueued := t.enqueued ++ [u] } : Trace).state.queue =
          t.state.queue ++ [(u, d)] from rfl]
      simp only [List.mem_append, List.mem_singleton, hq, h3 x]
      tauto
    · rw [show ({ t with
            state := { t.state with queue := t.state.queue ++ [(u, d)] },
            enqueued := t.enqueued ++ [u] } : Trace).state.queue =
          t.state.queue ++ [(u, d)] from rfl]
      rw [hq, List.nodup_append]
      exact ⟨h4, List.nodup_singleton u, by
        intro x hx hx2
        simp only [List.mem_singleton] at hx2
        exact hc.2 (hx2 ▸ hx)⟩
  · rw [if_neg hc]
    exact ⟨h1, h2, h3, h4⟩

theorem foldl_enqueueT_inv (ls : List Str) (d : Nat) :
    ∀ t : Trace, C1Inv t → C1Inv (ls.foldl (fun acc l => enqueueT acc l d) t) := by
  induction ls with
  | nil => intro t h; exact h
  | cons l ls ih =>
    intro t h
    exact ih _ (enqueueT_inv h l d)

theorem foldl_enqueueT_ext (ls : List Str) (d : Nat) :
    ∀ t : Trace, ∃ ext,
      (ls.foldl (fun acc l => enqueueT acc l d) t).state.queue = t.state.queue ++ ext := by
  induction ls with
  | nil => intro t; exact ⟨[], by simp⟩
  | cons l ls ih =>
    intro t
    obtain ⟨ext, hext⟩ := ih (enqueueT t l d)
    unfold enqueueT at hext ⊢
    by_cases hc : l ∉ t.state.visited ∧ l ∉ qkeys t.state.queue
    · rw [if_pos hc] at hext
      simp only [List.foldl_cons]
      rw [if_pos hc]
      exact ⟨(l, d) :: ext, by simpa using hext⟩
    · rw [if_neg hc] at hext
      simp only [List.foldl_cons]
      rw [if_neg hc]
      exact ⟨ext, hext⟩

theorem processUrlT_inv {cfg : PConfig} {links : Str → List Str} {t : Trace} {u : Str}
    {d : Nat} (h : C1Inv t) (hq : u ∈ qkeys t.state.queue) :
    C1Inv (processUrlT cfg links t u d) := by
  obtain ⟨h1, h2, h3, h4⟩ := h
  unfold processUrlT
  by_cases hv : u ∈ t.state.visited
  · rw [if_pos hv]; exact ⟨h1, h2, h3, h4⟩
  · rw [if_neg hv]
    by_cases hd : 0 < cfg.maxDepth ∧ cfg.maxDepth < d
    · rw [if_pos hd]; exact ⟨h1, h2, h3, h4⟩
    · rw [if_neg hd]
      have hinv1 : C1Inv
          { t with
            state := { visited := u :: t.state.visited,
                       queue := t.state.queue.filter (fun p => decide (p.1 ≠ u)) },
            dispatched := t.dispatched ++ [u] } := by
        refine ⟨?_, ?_, ?_, ?_⟩
        · rw [List.nodup_append]
          refine ⟨h1, List.nodup_singleton u, ?_⟩
          intro x hx hx2
          simp only [List.mem_singleton] at hx2
          subst hx2
          exact hv ((h2 x).mpr hx)
        · intro x
          simp only [List.mem_cons, List.mem_append, List.mem_singleton, h2 x]
          tauto
        · intro x
          simp only [List.mem_cons, mem_qkeys_filter, h3 x]
          by_cases hxu : x = u
          · subst hxu
            simp [hq]
          · simp [hxu]
        · exact List.Nodup.sublist
            (List.Sublist.map Prod.fst (List.filter_sublist t.state.queue)) h4
      by_cases hdd : cfg.maxDepth = 0 ∨ d < cfg.maxDepth
      · rw [if_pos hdd]
        exact foldl_enqueueT_inv _ _ _ hinv1
      · rw [if_neg hdd]
        exact hinv1

theorem processUrlT_queue_keep {cfg : PConfig} {links : Str → List Str} {t : Trace}
    {u : Str} {d : Nat} {p : Str × Nat} (hp : p ∈ t.state.queue) (hne : p.1 ≠ u) :
    p ∈ (processUrlT cfg links t u d).state.queue := by
  unfold processUrlT
  by_cases hv : u ∈ t.state.visited
  · rw [if_pos hv]; exact hp
  · rw [if_neg hv]
    by_cases hd : 0 < cfg.maxDepth ∧ cfg.maxDepth < d
    · rw [if_pos hd]; exact hp
    · rw [if_neg hd]
      have hfil : p ∈ t.state.queue.filter (fun p => decide (p.1 ≠ u)) :=
        List.mem_filter.mpr ⟨hp, by simpa using hne⟩
      by_cases hdd : cfg.maxDepth = 0 ∨ d < cfg.maxDepth
      · rw [if_pos hdd]
        obtain ⟨ext, hext⟩ := foldl_enqueueT_ext (links u) (d + 1)
          { t with
            state := { visited := u :: t.state.visited,
                       queue := t.state.queue.filter (fun p => decide (p.1 ≠ u)) },
            dispatched := t.dispatched ++ [u] }
        rw [hext]
        exact List.mem_append_left _ hfil
      · rw [if_neg hdd]
        exact hfil

theorem foldl_processUrlT_inv (cfg : PConfig) (links : Str → List Str) :
    ∀ (batch : List (Str × Nat)) (t : Trace), C1Inv t →
      (∀ p ∈ batch, p ∈ t.state.queue) → (batch.map Prod.fst).Nodup →
      C1Inv (batch.foldl (fun acc p => processUrlT cfg links acc p.1 p.2) t) := by
  intro batch
  induction batch with
  | nil => intro t h _ _; exact h
  | cons q rest ih =>
    intro t h hsub hnd
    simp only [List.foldl_cons]
    have hq : q.1 ∈ qkeys t.state.queue := List.mem_map.mpr ⟨q, hsub q (by simp), rfl⟩
    apply ih
    · exact processUrlT_inv h hq
    · intro p hp
      apply processUrlT_queue_keep (hsub p (by simp [hp]))
      intro hcontra
      simp only [List.map_cons, List.nodup_cons] at hnd
      exact hnd.1 (hcontra ▸ List.mem_map.mpr ⟨p, hp, rfl⟩)
    · simp only [List.map_cons, List.nodup_cons] at hnd
      exact hnd.2

theorem batchStepT_inv {cfg : PConfig} {links : Str → List Str} {t : Trace}
    (h : C1Inv t) : C1Inv (batchStepT cfg links t) := by
  unfold batchStepT takeBatchT
  apply foldl_processUrlT_inv
  · exact h
  · intro p hp
    exact List.take_subset _ _ hp
  · exact List.Nodup.sublist (List.Sublist.map Prod.fst (List.take_sublist _ _)) h.2.2.2

theorem crawlRunT_inv (cfg : PConfig) (links : Str → List Str) :
    ∀ (fuel : Nat) (t t' : Trace), C1Inv t →
      crawlRunT cfg links fuel t = some t' → C1Inv t' ∧ t'.state.queue = [] := by
  intro fuel
  induction fuel with
  | zero => intro t t' _ hcon; simp [crawlRunT] at hcon
  | succ n ih =>
    intro t t' h hrun
    unfold crawlRunT at hrun
    by_cases hq : t.state.queue = []
    · rw [if_pos hq] at hrun
      cases hrun
      exact ⟨h, hq⟩
    · rw [if_neg hq] at hrun
      exact ih _ _ (batchStepT_inv h) hrun

theorem seedT_trace0_inv (cfg : PConfig) : C1Inv (seedT cfg trace0) := by
  have hinv0 : C1Inv trace0 := by
    refine ⟨List.nodup_nil, ?_, ?_, ?_⟩ <;> simp [trace0, qkeys]
  unfold seedT
  rw [if_pos (by simp [trace0])]
  by_cases hn : privNormalizeUrl cfg.norm cfg.norm.baseUrl cfg.norm.baseUrl ≠ none
  · rw [if_pos hn]
    refine ⟨List.nodup_nil, ?_, ?_, ?_⟩
    · intro u; simp [trace0]
    · intro u; simp [trace0, qkeys]
    · simp [trace0, qkeys]
  · rw [if_neg hn]
    exact hinv0

/-- Worked example base URL (the spec's §8 scenario). -/
def baseEx : Str := str "https://docs.example.com/guide"

/-- Normalization config for the worked example. -/
def cfgNormEx : NormCfg := ⟨baseEx, str "docs.example.com", none⟩

/-- A state file written by an earlier unlimited-depth run: one pending
entry discovered at depth 3. -/
def savedStale : PSaved := ⟨[], [(str "https://docs.example.com/guide/deep", 3)]⟩

/-- Configuration of the resumed run: `max_depth = 2` (nonzero). -/
def cfgStale : PConfig := ⟨cfgNormEx, 2, 5⟩

/-- A link extractor finding no links. -/
def linksNone : Str → List Str := fun _ => []

/-- Startup of the resumed run: state restored from `savedStale`. -/
def traceLoadedStale : Trace := ⟨privLoadState savedStale, [], [], []⟩

/-- The resumed run after the seeding prologue (the queue is non-empty, so
nothing is seeded). -/
def traceStale : Trace := seedT cfgStale traceLoadedStale

/-- Small complete-run configuration: no depth limit, five workers. -/
def cfgRunW : PConfig := ⟨⟨str "https://h/g", str "h", none⟩, 0, 5⟩

/-- Link extractor for the small run: the base page links to one page,
which links to nothing. -/
def linksRunW : Str → List Str :=
  fun u => if u = str "https://h/g" then [str "https://h/g/a"] else []

/-- The final trace of the small complete run. -/
def traceRunW : Trace :=
  ⟨⟨[str "https://h/g/a", str "https://h/g"], []⟩,
   [str "https://h/g", str "https://h/g/a"],
   [str "https://h/g", str "https://h/g/a"],
   [(str "https://h/g", 1), (str "https://h/g/a", 2)]⟩

/-- C1 counterexample: the claim's take-time remove-and-mark (and the
ensuing no-repeat guarantee) fails on the code.  Resuming `savedStale`
(one pending entry of depth 3) with `max_depth = 2`, two iterations of the
main loop return the same URL in two different batch selections, because
`process_url` skips depth-exceeded entries without removing or marking
them: the multiset of URLs returned across `take_batch` calls has a
repeat. -/
theorem c1_counterexample :
    ¬ ((((batchStepT cfgStale linksNone)^[2]) traceStale).batched.map Prod.fst).Nodup := by
  decide

/-- C1 (amended): the batch selection of the crawl loop does not itself
remove or mark entries; removal-and-marking happens at the start of each
entry's processing.  For every complete fresh run of
`PrivateDocumentationCrawler.crawl` (any configuration, any link
extraction), the URLs dispatched for fetching are pairwise distinct and
are exactly the distinct successfully-enqueued URLs. -/
theorem c1_amended_theorem (cfg : PConfig) (links : Str → List Str) (fuel : Nat) (t' : Trace)
    (h : crawlT cfg links fuel = some t') :
    t'.dispatched.Nodup ∧ (∀ u, u ∈ t'.dispatched ↔ u ∈ t'.enqueued) := by
  obtain ⟨hinv, hq⟩ := crawlRunT_inv cfg links fuel _ t' (seedT_trace0_inv cfg) h
  obtain ⟨h1, h2, h3, _⟩ := hinv
  refine ⟨h1, fun u => ?_⟩
  constructor
  · intro hd
    exact (h3 u).mpr (Or.inl ((h2 u).mpr hd))
  · intro he
    rcases (h3 u).mp he with hv | hk
    · exact (h2 u).mp hv
    · rw [hq] at hk
      simp [qkeys] at hk

/-- C1 witness: the amended theorem applied to the small complete run. -/
theorem c1_amended_witness : (Trace.dispatched traceRunW).Nodup :=
  (c1_amended_theorem cfgRunW linksRunW 10 traceRunW (by decide)).1

theorem enqueueT_disj {t : Trace} (h : Disj t.state) (u : Str) (d : Nat) :
    Disj (enqueueT t u d).state ∧ (enqueueT t u d).state.visited = t.state.visited := by
  unfold enqueueT
  by_cases hc : u ∉ t.state.visited ∧ u ∉ qkeys t.state.queue
  · rw [if_pos hc]
    refine ⟨?_, rfl⟩
    intro x hx
    rw [show ({ t with
          state := { t.state with queue := t.state.queue ++ [(u, d)] },
          enqueued := t.enqueued ++ [u] } : Trace).state.queue =
        t.state.queue ++ [(u, d)] from rfl]
    rw [qkeys_append]
    intro hmem
    rcases List.mem_append.mp hmem with hmem | hmem
    · exact h x hx hmem
    · simp only [qkeys, List.map_cons, List.map_nil, List.mem_singleton] at hmem
      exact hc.1 (hmem ▸ hx)
  · rw [if_neg hc]
    exact ⟨h, rfl⟩

theorem foldl_enqueueT_disj (ls : List Str) (d : Nat) :
    ∀ t : Trace, Disj t.state →
      Disj (ls.foldl (fun acc l => enqueueT acc l d) t).state ∧
      (ls.foldl (fun acc l => enqueueT acc l d) t).state.visited = t.state.visited := by
  induction ls with
  | nil => intro t h; exact ⟨h, rfl⟩
  | cons l ls ih =>
    intro t h
    obtain ⟨h1, h2⟩ := enqueueT_disj h l d
    obtain ⟨h3, h4⟩ := ih _ h1
    exact ⟨h3, h4.trans h2⟩

theorem processUrlT_disj {cfg : PConfig} {links : Str → List Str} {t : Trace} {u : Str}
    {d : Nat} (h : Disj t.state) :
    Disj (processUrlT cfg links t u d).state ∧
    t.state.visited ⊆ (processUrlT cfg links t u d).state.visited := by
  unfold processUrlT
  by_cases hv : u ∈ t.state.visited
  · rw [if_pos hv]; exact ⟨h, fun x hx => hx⟩
  · rw [if_neg hv]
    by_cases hd : 0 < cfg.maxDepth ∧ cfg.maxDepth < d
    · rw [if_pos hd]; exact ⟨h, fun x hx => hx⟩
    · rw [if_neg hd]
      have hdisj1 : Disj
          ({ t with
            state := { visited := u :: t.state.visited,
                       queue := t.state.queue.filter (fun p => decide (p.1 ≠ u)) },
            dispatched := t.dispatched ++ [u] } : Trace).state := by
        intro x hx
        simp only [List.mem_cons] at hx
        intro hmem
        rw [show ({ t with
              state := { visited := u :: t.state.visited,
                         queue := t.state.queue.filter (fun p => decide (p.1 ≠ u)) },
              dispatched := t.dispatched ++ [u] } : Trace).state.queue =
            t.state.queue.filter (fun p => decide (p.1 ≠ u)) from rfl] at hmem
        rcases hx with rfl | hx
        · exact (mem_qkeys_filter.mp hmem).2 rfl
        · exact h x hx (mem_qkeys_filter.mp hmem).1
      by_cases hdd : cfg.maxDepth = 0 ∨ d < cfg.maxDepth
      · rw [if_pos hdd]
        obtain ⟨h1, h2⟩ := foldl_enqueueT_disj (links u) (d + 1) _ hdisj1
        refine ⟨h1, fun x hx => ?_⟩
        rw [h2]
        exact List.mem_cons_of_mem u hx
      · rw [if_neg hdd]
        exact ⟨hdisj1, fun x hx => List.mem_cons_of_mem u hx⟩

theorem seedT_disj {cfg : PConfig} {t : Trace} (h : Disj t.state) :
    Disj (seedT cfg t).state ∧ t.state.visited ⊆ (seedT cfg t).state.visited := by
  unfold seedT
  by_cases hc : t.state.queue = [] ∧ cfg.norm.baseUrl ∉ t.state.visited
  · rw [if_pos hc]
    by_cases hn : privNormalizeUrl cfg.norm cfg.norm.baseUrl cfg.norm.baseUrl ≠ none
    · rw [if_pos hn]
      refine ⟨?_, fun x hx => hx⟩
      intro x hx
      rw [show ({ t with
            state := { t.state with queue := [(cfg.norm.baseUrl, 1)] },
            enqueued := t.enqueued ++ [cfg.norm.baseUrl] } : Trace).state.queue =
          [(cfg.norm.baseUrl, 1)] from rfl]
      simp only [qkeys, List.map_cons, List.map_nil, List.mem_singleton]
      intro heq
      exact hc.2 (heq ▸ hx)
    · rw [if_neg hn]
      exact ⟨h, fun x hx => hx⟩
  · rw [if_neg hc]
    exact ⟨h, fun x hx => hx⟩

theorem applyOpT_disj {cfg : PConfig} {links : Str → List Str} {t : Trace} (op : POp)
    (h : Disj t.state) :
    Disj (applyOpT cfg links t op).state ∧
    t.state.visited ⊆ (applyOpT cfg links t op).state.visited := by
  cases op with
  | seed => exact seedT_disj h
  | process u d => exact processUrlT_disj h
  | retryPop u =>
    refine ⟨?_, fun x hx => hx⟩
    intro x hx hmem
    unfold applyOpT at hmem
    rw [show ({ t with
          state := { t.state with
            queue := t.state.queue.filter (fun p => decide (p.1 ≠ u)) } } : Trace).state.queue =
        t.state.queue.filter (fun p => decide (p.1 ≠ u)) from rfl] at hmem
    exact h x hx (mem_qkeys_filter.mp hmem).1

theorem applyOpsT_disj (cfg : PConfig) (links : Str → List Str) (ops : List POp) :
    ∀ t : Trace, Disj t.state →
      Disj (applyOpsT cfg links ops t).state ∧
      t.state.visited ⊆ (applyOpsT cfg links ops t).state.visited := by
  induction ops with
  | nil => intro t h; exact ⟨h, fun x hx => hx⟩
  | cons op ops ih =>
    intro t h
    obtain ⟨h1, h2⟩ := @applyOpT_disj cfg links t op h
    obtain ⟨h3, h4⟩ := ih _ h1
    exact ⟨h3, fun x hx => h4 (h2 hx)⟩

theorem privLoadState_disj (sv : PSaved) : Disj (privLoadState sv) := by
  intro u hu hq
  simp only [privLoadState, qkeys, List.mem_map] at hq
  obtain ⟨p, hp, rfl⟩ := hq
  have hfil := (List.mem_filter.mp hp).2
  simp only [decide_eq_true_eq] at hfil
  exact hfil hu

theorem runPyProcessUrl_disj {links : List Str} {s : RPState} {u : Str}
    (h : RPDisj s) (hfrag : defragL u = u) (hq : u ∉ s.queue) :
    RPDisj (runPyProcessUrl links s u) ∧
    s.visited ⊆ (runPyProcessUrl links s u).visited := by
  unfold runPyProcessUrl
  by_cases hv : u ∈ s.visited
  · rw [if_pos hv]; exact ⟨h, fun x hx => hx⟩
  · rw [if_neg hv]
    have hdisj1 : RPDisj { s with visited := defragL u :: s.visited } := by
      intro x hx
      rw [hfrag] at hx
      simp only [List.mem_cons] at hx
      rcases hx with rfl | hx
      · exact hq
      · exact h x hx
    have hgen : ∀ (ls : List Str) (s0 : RPState), RPDisj s0 →
        RPDisj (ls.foldl
          (fun acc l =>
            if l ∉ acc.visited ∧ l ∉ acc.queue then { acc with queue := acc.queue ++ [l] }
            else acc) s0) ∧
        (ls.foldl
          (fun acc l =>
            if l ∉ acc.visited ∧ l ∉ acc.queue then { acc with queue := acc.queue ++ [l] }
            else acc) s0).visited = s0.visited := by
      intro ls
      induction ls with
      | nil => intro s0 h0; exact ⟨h0, rfl⟩
      | cons l ls ih =>
        intro s0 h0
        have hstep : RPDisj (if l ∉ s0.visited ∧ l ∉ s0.queue
              then { s0 with queue := s0.queue ++ [l] } else s0) ∧
            (if l ∉ s0.visited ∧ l ∉ s0.queue
              then { s0 with queue := s0.queue ++ [l] } else s0).visited = s0.visited := by
          by_cases hc : l ∉ s0.visited ∧ l ∉ s0.queue
          · rw [if_pos hc]
            refine ⟨?_, rfl⟩
            intro x hx hmem
            rcases List.mem_append.mp hmem with hmem | hmem
            · exact h0 x hx hmem
            · simp only [List.mem_singleton] at hmem
              exact hc.1 (hmem ▸ hx)
          · rw [if_neg hc]
            exact ⟨h0, rfl⟩
        obtain ⟨h1, h2⟩ := hstep
        obtain ⟨h3, h4⟩ := ih _ h1
        exact ⟨h3, h4.trans h2⟩
    obtain ⟨h1, h2⟩ := hgen links { s with visited := defragL u :: s.visited } hdisj1
    refine ⟨h1, fun x hx => ?_⟩
    rw [h2]
    exact List.mem_cons_of_mem _ hx

/-- C2: the visited set and the pending queue are disjoint at every state
reachable by the run-private frontier operations from a disjoint state
(hence at every persisted snapshot, which copies the current state), and
every operation only grows the visited set; `_load_state` restores the
saved visited set exactly (no URL removed) and yields a disjoint frontier
by construction; run.py's `process_url` on a batch-popped, fragment-free
URL likewise preserves disjointness and never removes a visited URL. -/
theorem c2_theorem :
    (∀ (cfg : PConfig) (links : Str → List Str) (ops : List POp) (t : Trace),
      Disj t.state →
      Disj (applyOpsT cfg links ops t).state ∧
      t.state.visited ⊆ (applyOpsT cfg links ops t).state.visited) ∧
    (∀ sv : PSaved, (privLoadState sv).visited = sv.visitedUrls ∧ Disj (privLoadState sv)) ∧
    (∀ (links : List Str) (s : RPState) (u : Str),
      RPDisj s → defragL u = u → u ∉ s.queue →
      RPDisj (runPyProcessUrl links s u) ∧
      s.visited ⊆ (runPyProcessUrl links s u).visited) := by
  refine ⟨?_, ?_, ?_⟩
  · intro cfg links ops t h
    exact applyOpsT_disj cfg links ops t h
  · intro sv
    exact ⟨rfl, privLoadState_disj sv⟩
  · intro links s u h hfrag hq
    exact runPyProcessUrl_disj h hfrag hq

/-- C2 witness: the invariant applied to a concrete operation sequence of
the resumed-run example. -/
theorem c2_witness :
    Disj (applyOpsT cfgStale linksNone
      [POp.seed, POp.process (str "https://docs.example.com/guide/deep") 3] traceLoadedStale).state :=
  (c2_theorem.1 cfgStale linksNone
    [POp.seed, POp.process (str "https://docs.example.com/guide/deep") 3] traceLoadedStale
    (privLoadState_disj savedStale)).1

/-- C3 counterexample: run.py's `_load_state` does not drop a pending
entry whose URL is already in the loaded visited set — the claim's
defensive de-duplication clause fails on run.py.  Loading a snapshot with
the same URL in both fields leaves it in both fields. -/
theorem c3_counterexample :
    str "https://docs.example.com/guide/a" ∈
      (runPyLoadState ⟨[str "https://docs.example.com/guide/a"],
        [str "https://docs.example.com/guide/a"]⟩).queue ∧
    str "https://docs.example.com/guide/a" ∈
      (runPyLoadState ⟨[str "https://docs.example.com/guide/a"],
        [str "https://docs.example.com/guide/a"]⟩).visited := by
  decide

/-- C3 (amended): in run-private.py, `_load_state` restores exactly the
saved visited set and the saved pending entries minus those already
visited, the restored pending keys stay duplicate-free, no restored
pending URL is visited, and `crawl` does not re-seed the base URL when the
restored queue is non-empty or the base URL is already visited.  (run.py's
`_load_state` restores the pending list unfiltered; a visited pending
entry is instead skipped at processing time.) -/
theorem c3_amended_theorem :
    (∀ sv : PSaved,
      (privLoadState sv).visited = sv.visitedUrls ∧
      (privLoadState sv).queue = sv.queue.filter (fun p => decide (p.1 ∉ sv.visitedUrls)) ∧
      ((qkeys sv.queue).Nodup → (qkeys (privLoadState sv).queue).Nodup) ∧
      (∀ p ∈ (privLoadState sv).queue, p.1 ∉ (privLoadState sv).visited)) ∧
    (∀ (cfg : PConfig) (t : Trace),
      (t.state.queue ≠ [] ∨ cfg.norm.baseUrl ∈ t.state.visited) → seedT cfg t = t) := by
  constructor
  · intro sv
    refine ⟨rfl, rfl, ?_, ?_⟩
    · intro hnd
      exact List.Nodup.sublist
        (List.Sublist.map Prod.fst (List.filter_sublist sv.queue)) hnd
    · intro p hp
      have hfil := (List.mem_filter.mp hp).2
      simpa using hfil
  · intro cfg t h
    unfold seedT
    rw [if_neg]
    intro hc
    rcases h with h | h
    · exact h hc.1
    · exact hc.2 h

/-- C3 witness: the resumed-run example — the restored queue is non-empty,
so seeding leaves the state unchanged. -/
theorem c3_witness : seedT cfgStale traceLoadedStale = traceLoadedStale :=
  c3_amended_theorem.2 cfgStale traceLoadedStale (Or.inl (by decide))

/-- All pending entries sit at depth at most `d`. -/
def QDepthOk (d : Nat) (s : PState) : Prop := ∀ p ∈ s.queue, p.2 ≤ d

theorem enqueueT_qdepth {t : Trace} {d dd : Nat} (h : QDepthOk d t.state) (hdd : dd ≤ d)
    (u : Str) : QDepthOk d (enqueueT t u dd).state := by
  unfold enqueueT
  by_cases hc : u ∉ t.state.visited ∧ u ∉ qkeys t.state.queue
  · rw [if_pos hc]
    intro p hp
    rcases List.mem_append.mp hp with hp | hp
    · exact h p hp
    · simp only [List.mem_singleton] at hp
      subst hp
      exact hdd
  · rw [if_neg hc]
    exact h

theorem foldl_enqueueT_qdepth {d dd : Nat} (hdd : dd ≤ d) (ls : List Str) :
    ∀ t : Trace, QDepthOk d t.state →
      QDepthOk d ((ls.foldl (fun acc l => enqueueT acc l dd) t)).state := by
  induction ls with
  | nil => intro t h; exact h
  | cons l ls ih =>
    intro t h
    exact ih _ (enqueueT_qdepth h hdd l)

theorem processUrlT_qdepth {cfg : PConfig} {links : Str → List Str} {t : Trace} {u : Str}
    {dep : Nat} (h0 : 0 < cfg.maxDepth) (h : QDepthOk cfg.maxDepth t.state) :
    QDepthOk cfg.maxDepth (processUrlT cfg links t u dep).state := by
  unfold processUrlT
  by_cases hv : u ∈ t.state.visited
  · rw [if_pos hv]; exact h
  · rw [if_neg hv]
    by_cases hd : 0 < cfg.maxDepth ∧ cfg.maxDepth < dep
    · rw [if_pos hd]; exact h
    · rw [if_neg hd]
      have h1 : QDepthOk cfg.maxDepth
          ({ t with
            state := { visited := u :: t.state.visited,
                       queue := t.state.queue.filter (fun p => decide (p.1 ≠ u)) },
            dispatched := t.dispatched ++ [u] } : Trace).state := by
        intro p hp
        exact h p (List.mem_filter.mp hp).1
      by_cases hdd : cfg.maxDepth = 0 ∨ dep < cfg.maxDepth
      · rw [if_pos hdd]
        have hlt : dep + 1 ≤ cfg.maxDepth := by
          rcases hdd with hdd | hdd
          · omega
          · omega
        exact foldl_enqueueT_qdepth hlt (links u) _ h1
      · rw [if_neg hdd]
        exact h1

/-- Batched entries and queue entries all stay at depth at most the
configured maximum. -/
def C5Inv (cfg : PConfig) (t : Trace) : Prop :=
  QDepthOk cfg.maxDepth t.state ∧ ∀ p ∈ t.batched, p.2 ≤ cfg.maxDepth

theorem batchStepT_c5inv {cfg : PConfig} {links : Str → List Str} {t : Trace}
    (h0 : 0 < cfg.maxDepth) (h : C5Inv cfg t) : C5Inv cfg (batchStepT cfg links t) := by
  obtain ⟨hq, hb⟩ := h
  unfold batchStepT takeBatchT
  have hbatch : ∀ p ∈ t.state.queue.take cfg.maxWorkers, p.2 ≤ cfg.maxDepth := by
    intro p hp
    exact hq p (List.take_subset _ _ hp)
  have hgen : ∀ (batch : List (Str × Nat)) (t0 : Trace),
      QDepthOk cfg.maxDepth t0.state → (∀ p ∈ t0.batched, p.2 ≤ cfg.maxDepth) →
      C5Inv cfg (batch.foldl (fun acc p => processUrlT cfg links acc p.1 p.2) t0) := by
    intro batch
    induction batch with
    | nil => intro t0 h1 h2; exact ⟨h1, h2⟩
    | cons q rest ih =>
      intro t0 h1 h2
      simp only [List.foldl_cons]
      apply ih
      · exact processUrlT_qdepth h0 h1
      · have : (processUrlT cfg links t0 q.1 q.2).batched = t0.batched := by
          unfold processUrlT
          by_cases hv : q.1 ∈ t0.state.visited
          · rw [if_pos hv]
          · rw [if_neg hv]
            by_cases hd : 0 < cfg.maxDepth ∧ cfg.maxDepth < q.2
            · rw [if_pos hd]
            · rw [if_neg hd]
              by_cases hdd : cfg.maxDepth = 0 ∨ q.2 < cfg.maxDepth
              · rw [if_pos hdd]
                have hgen2 : ∀ (ls : List Str) (tt : Trace),
                    (ls.foldl (fun acc l => enqueueT acc l (q.2 + 1)) tt).batched =
                    tt.batched := by
                  intro ls
                  induction ls with
                  | nil => intro tt; rfl
                  | cons l ls ih2 =>
                    intro tt
                    rw [List.foldl_cons, ih2]
                    unfold enqueueT
                    by_cases hc : l ∉ tt.state.visited ∧ l ∉ qkeys tt.state.queue
                    · rw [if_pos hc]
                    · rw [if_neg hc]
                exact hgen2 (links q.1) _
              · rw [if_neg hdd]
        rw [this]
        exact h2
  apply hgen
  · exact hq
  · intro p hp
    rcases List.mem_append.mp hp with hp | hp
    · exact hb p hp
    · exact hbatch p hp

theorem seedT_trace0_c5inv {cfg : PConfig} (h0 : 0 < cfg.maxDepth) :
    C5Inv cfg (seedT cfg trace0) := by
  unfold seedT
  rw [if_pos (by simp [trace0])]
  by_cases hn : privNormalizeUrl cfg.norm cfg.norm.baseUrl cfg.norm.baseUrl ≠ none
  · rw [if_pos hn]
    constructor
    · intro p hp
      simp only [trace0, List.mem_singleton] at hp
      subst hp
      omega
    · intro p hp
      simp [trace0] at hp
  · rw [if_neg hn]
    constructor
    · intro p hp; simp [trace0] at hp
    · intro p hp; simp [trace0] at hp

/-- C5 counterexample: the claim's "never enters the pending queue" fails
on resume.  `_load_state` does not filter by depth: resuming `savedStale`
under `max_depth = 2` puts a depth-3 entry into the pending queue, and the
batch selection returns it. -/
theorem c5_counterexample :
    cfgStale.maxDepth = 2 ∧
    (str "https://docs.example.com/guide/deep", 3) ∈ (privLoadState savedStale).queue ∧
    (str "https://docs.example.com/guide/deep", 3) ∈ traceStale.state.queue ∧
    (str "https://docs.example.com/guide/deep", 3) ∈ takeBatchT cfgStale traceStale := by
  decide

/-- C5 (amended): in a fresh run with nonzero `max_depth = d`, URLs of
discovery depth exceeding `d` are dropped at enqueue time, so every entry
ever returned by a batch selection has depth at most `d`; and a URL whose
depth exceeds `d` is never dispatched for fetching — `process_url` returns
without any state change (which also means a resume-loaded over-deep entry
is never fetched, though it does sit in the loaded queue). -/
theorem c5_amended_theorem :
    (∀ (cfg : PConfig) (links : Str → List Str) (n : Nat), 0 < cfg.maxDepth →
      ∀ p ∈ ((fun t => batchStepT cfg links t)^[n] (seedT cfg trace0)).batched,
        p.2 ≤ cfg.maxDepth) ∧
    (∀ (cfg : PConfig) (links : Str → List Str) (t : Trace) (u : Str) (dep : Nat),
      0 < cfg.maxDepth → cfg.maxDepth < dep → processUrlT cfg links t u dep = t) := by
  constructor
  · intro cfg links n h0
    have hinv : C5Inv cfg ((fun t => batchStepT cfg links t)^[n] (seedT cfg trace0)) := by
      induction n with
      | zero => simpa using seedT_trace0_c5inv h0
      | succ m ih =>
        rw [Function.iterate_succ_apply']
        exact batchStepT_c5inv h0 ih
    exact hinv.2
  · intro cfg links t u dep h0 hdep
    unfold processUrlT
    by_cases hv : u ∈ t.state.visited
    · rw [if_pos hv]
    · rw [if_neg hv, if_pos ⟨h0, hdep⟩]

/-- C5 witness: a depth-5 entry under `max_depth = 2` is skipped with no
state change. -/
theorem c5_witness :
    processUrlT cfgStale linksNone traceStale (str "https://docs.example.com/guide/x") 5 =
      traceStale :=
  c5_amended_theorem.2 cfgStale linksNone traceStale
    (str "https://docs.example.com/guide/x") 5 (by decide) (by decide)

theorem c9_step_fixed :
    ∀ t : Trace, t.state.visited = [] →
      t.state.queue = [(str "https://docs.example.com/guide/deep", 3)] →
      (batchStepT cfgStale linksNone t).state.visited = [] ∧
      (batchStepT cfgStale linksNone t).state.queue =
        [(str "https://docs.example.com/guide/deep", 3)] := by
  intro t hv hq
  unfold batchStepT takeBatchT
  rw [hq]
  rw [show (List.take cfgStale.maxWorkers
      [(str "https://docs.example.com/guide/deep", 3)]) =
      [(str "https://docs.example.com/guide/deep", 3)] from by decide]
  simp only [List.foldl_cons, List.foldl_nil]
  unfold processUrlT
  have hvis : (str "https://docs.example.com/guide/deep") ∉
      ({ t with batched := t.batched ++ [(str "https://docs.example.com/guide/deep", 3)] } :
        Trace).state.visited := by
    show (str "https://docs.example.com/guide/deep") ∉ t.state.visited
    rw [hv]
    exact List.not_mem_nil _
  rw [if_neg hvis, if_pos (show 0 < cfgStale.maxDepth ∧ cfgStale.maxDepth < 3 by decide)]
  exact ⟨hv, hq⟩

/-- C9: the termination claim is right and the code is wrong.  A pending
entry loaded from a prior state file whose depth exceeds a nonzero
`max_depth` is selected into every batch, but `process_url` returns from
its depth check without dequeuing it (run-private.py:188-190), so the
batch iteration leaves the state unchanged with a non-empty queue and the
crawl loop never terminates: `crawlRunT` returns `none` for every amount
of fuel on the resumed `savedStale` example. -/
theorem c9_bug_theorem :
    (batchStepT cfgStale linksNone traceStale).state = traceStale.state ∧
    traceStale.state.queue ≠ [] ∧
    (∀ fuel : Nat, crawlRunT cfgStale linksNone fuel traceStale = none) := by
  refine ⟨by decide, by decide, ?_⟩
  have hgen : ∀ (fuel : Nat) (t : Trace), t.state.visited = [] →
      t.state.queue = [(str "https://docs.example.com/guide/deep", 3)] →
      crawlRunT cfgStale linksNone fuel t = none := by
    intro fuel
    induction fuel with
    | zero => intro t _ _; rfl
    | succ n ih =>
      intro t hv hq
      unfold crawlRunT
      rw [if_neg (by
        rw [hq]
        intro hcon
        exact absurd hcon (by decide))]
      obtain ⟨h1, h2⟩ := c9_step_fixed t hv hq
      exact ih _ h1 h2
  intro fuel
  exact hgen fuel traceStale (by decide) (by decide)

theorem schemeL_http (w : Str) : schemeL (str "http://" ++ w) = str "http" := by
  unfold schemeL
  rw [show (str "http://" ++ w) = str "http" ++ ':' :: (str "//" ++ w) from by
    rw [show str "http://" = str "http" ++ [':'] ++ str "//" from by decide]
    simp]
  exact takeWhile_append_stop (by decide) (by decide)

theorem schemeL_https (w : Str) : schemeL (str "https://" ++ w) = str "https" := by
  unfold schemeL
  rw [show (str "https://" ++ w) = str "https" ++ ':' :: (str "//" ++ w) from by
    rw [show str "https://" = str "https" ++ [':'] ++ str "//" from by decide]
    simp]
  exact takeWhile_append_stop (by decide) (by decide)

theorem defragL_http_append (w : Str) :
    defragL (str "http://" ++ w) = str "http://" ++ defragL w := by
  unfold defragL
  exact takeWhile_append_all (by decide)

theorem defragL_https_append (w : Str) :
    defragL (str "https://" ++ w) = str "https://" ++ defragL w := by
  unfold defragL
  exact takeWhile_append_all (by decide)

theorem schemeL_of_defrag_http {baseUrl full v : Str}
    (hb : pfx (str "http://") baseUrl = true ∨ pfx (str "https://") baseUrl = true)
    (hp : pfx baseUrl full = true) (hv : v = defragL full) :
    schemeL v = str "http" ∨ schemeL v = str "https" := by
  obtain ⟨t2, ht2⟩ := pfx_iff.mp hp
  rcases hb with hb | hb
  · obtain ⟨t1, ht1⟩ := pfx_iff.mp hb
    left
    rw [hv, ht2, ht1, List.append_assoc, defragL_http_append, schemeL_http]
  · obtain ⟨t1, ht1⟩ := pfx_iff.mp hb
    right
    rw [hv, ht2, ht1, List.append_assoc, defragL_https_append, schemeL_https]

/-- C4 counterexample: run.py's `_normalize_url` does not reject a
fragment-only href — the claim's "returns Rejected whenever ... the href
is a fragment-only ... link" fails on run.py, which resolves `#setup`
against the page and returns the page URL itself. -/
theorem c4_counterexample :
    runPyNormalizeUrl baseEx (str "docs.example.com") (str "#setup") baseEx ≠ none ∧
    runPyNormalizeUrl baseEx (str "docs.example.com") (str "#setup") baseEx = some baseEx := by
  decide

/-- C4 (amended): run-private.py's `_normalize_url` returns Rejected
(`None`, no error raised) exactly when the href is empty or a
fragment-only, `mailto:`, `tel:` or `javascript:` link, or the resolved
URL's host differs from the base domain, or the resolved URL does not
extend the base URL string (which subsumes non-http(s) schemes and paths
outside the base path prefix), or the exclusion pattern matches the
resolved URL; otherwise it returns the resolved URL with the fragment
stripped, and — the base URL being http(s) — any returned URL has scheme
http or https.  (run.py's variant lacks the pseudo-protocol and
fragment-only rejections, as the counterexample shows.) -/
theorem c4_amended_theorem (cfg : NormCfg) (href base : Str) :
    (privNormalizeUrl cfg href base = none ↔
      ((href = [] ∨ pfx (str "#") href = true ∨ pfx (str "mailto:") href = true ∨
        pfx (str "tel:") href = true ∨ pfx (str "javascript:") href = true) ∨
       netlocL (urljoinL base href) ≠ cfg.baseDomain ∨
       pfx cfg.baseUrl (urljoinL base href) = false ∨
       cfg.exclude.elim false (fun p => p (urljoinL base href)) = true)) ∧
    (privNormalizeUrl cfg href base ≠ none →
      privNormalizeUrl cfg href base = some (defragL (urljoinL base href))) ∧
    (pfx (str "http://") cfg.baseUrl = true ∨ pfx (str "https://") cfg.baseUrl = true →
      ∀ v, privNormalizeUrl cfg href base = some v →
        schemeL v = str "http" ∨ schemeL v = str "https") := by
  refine ⟨?_, ?_, ?_⟩
  · unfold privNormalizeUrl
    split_ifs with h1 h2 h3 h4
    · simp [h1]
    · simp [h2]
    · simp [h3]
    · simp [h4]
    · constructor
      · intro hcon
        exact absurd hcon (by simp)
      · rintro (hc | hc | hc | hc)
        · exact absurd hc h1
        · exact absurd hc h2
        · exact absurd hc h3
        · exact absurd hc h4
  · unfold privNormalizeUrl
    split_ifs with h1 h2 h3 h4
    · intro hcon; exact absurd rfl hcon
    · intro hcon; exact absurd rfl hcon
    · intro hcon; exact absurd rfl hcon
    · intro hcon; exact absurd rfl hcon
    · intro _; rfl
  · intro hb v hsome
    unfold privNormalizeUrl at hsome
    split_ifs at hsome with h1 h2 h3 h4
    have hveq : v = defragL (urljoinL base href) := (Option.some_inj.mp hsome).symm
    have hpfull : pfx cfg.baseUrl (urljoinL base href) = true := by
      simpa using h3
    exact schemeL_of_defrag_http hb hpfull hveq

/-- C4 witness: the characterization applied to a concrete relative href,
yielding a returned URL whose scheme is http(s). -/
theorem c4_witness :
    schemeL (str "https://docs.example.com/guide/install") = str "http" ∨
    schemeL (str "https://docs.example.com/guide/install") = str "https" :=
  (c4_amended_theorem cfgNormEx (str "install") (str "https://docs.example.com/guide/")).2.2
    (Or.inr (by decide)) (str "https://docs.example.com/guide/install") (by decide)

/-- The path-derivation pipeline in the words of the (amended) claim:
strip base URL and fragment, replace unsafe characters with underscores,
`index` for an empty remainder, then `.md` when the name carries a dot,
else an `index.md` below a directory of that name. -/
def specDerivedPath (base url : Str) : Str :=
  let remainder := stripSlashes (replaceAllL base [] (defragL url))
  let safe := sanitize remainder
  if safe = [] then str "index" ++ str "/index.md"
  else if sfx (str ".md") safe then safe
  else if '.' ∈ safe then safe ++ str ".md"
  else safe ++ str "/index.md"

/-- C6 counterexample: the claim's "the page at the base URL itself maps
to index.md" fails on run-private.py, whose `_get_filename` sends the base
URL to `index/index.md` (run.py is the variant that yields `index.md`). -/
theorem c6_counterexample :
    privGetFilename baseEx baseEx = str "index/index.md" ∧
    privGetFilename baseEx baseEx ≠ str "index.md" ∧
    runPyGetFilename baseEx baseEx = str "index.md" := by
  decide

/-- C6 (amended): run-private.py's `_get_filename` computes exactly the
claim's pipeline — strip base URL and fragment, underscore the unsafe
characters (a class that includes `/`), `index` for an empty remainder,
`.md` when the final name has a dot, otherwise an `index` file under a
directory of that name — with the base URL itself mapping to
`index/index.md` (not `index.md`); the `install` page of the spec scenario
maps to `install/index.md`. -/
theorem c6_amended_theorem :
    (∀ base url : Str, privGetFilename base url = specDerivedPath base url) ∧
    (∀ base : Str, base ≠ [] → defragL base = base →
      privGetFilename base base = str "index/index.md") ∧
    privGetFilename baseEx (baseEx ++ str "/install") = str "install/index.md" := by
  have hmain : ∀ base url : Str, privGetFilename base url = specDerivedPath base url := by
    intro base url
    simp only [privGetFilename, specDerivedPath]
    by_cases hs : sanitize (stripSlashes (replaceAllL base [] (defragL url))) = []
    · rw [hs]
      decide
    · simp only [if_neg hs]
      rw [nameOfPath_of_no_slash (sanitize_no_slash _)]
  refine ⟨hmain, ?_, ?_⟩
  · intro base hne hfrag
    rw [hmain base base]
    simp only [specDerivedPath]
    rw [hfrag, replaceAllL_self hne]
    decide
  · rw [hmain]
    decide

/-- C6 witness: the base-URL conjunct applied to the worked example. -/
theorem c6_witness : privGetFilename baseEx baseEx = str "index/index.md" :=
  c6_amended_theorem.2.1 baseEx (by decide) (by decide)

theorem sanitize_id {s : Str} (h : ∀ c ∈ s, c ∉ unsafeChars) : sanitize s = s := by
  unfold sanitize
  rw [show s.map (fun c => if c ∈ unsafeChars then '_' else c) =
      s.map (fun c => c) from List.map_congr_left (fun c hc => by rw [if_neg (h c hc)])]
  simp

/-- C10 counterexample: the two `_get_filename` variants disagree at the
base URL itself — run.py yields `index.md`, run-private.py yields
`index/index.md` — so documents produced by the two crawler variants are
not interchangeable. -/
theorem c10_counterexample :
    runPyGetFilename baseEx baseEx = str "index.md" ∧
    privGetFilename baseEx baseEx = str "index/index.md" ∧
    runPyGetFilename baseEx baseEx ≠ privGetFilename baseEx baseEx := by
  decide

/-- C10 (amended): the two variants agree exactly on the easy cases: when
the stripped remainder is non-empty, contains no character of the unsafe
class (which includes `/`), does not already end in `.md`, and its final
segment carries a dot, both variants derive `remainder ++ ".md"`.
Outside these conditions they can disagree (empty remainder, dotless
names, unsafe characters, pre-existing `.md` suffixes). -/
theorem c10_amended_theorem (base url : Str)
    (hne : stripSlashes (replaceAllL base [] (defragL url)) ≠ [])
    (hsafe : ∀ c ∈ stripSlashes (replaceAllL base [] (defragL url)), c ∉ unsafeChars)
    (hmd : sfx (str ".md") (stripSlashes (replaceAllL base [] (defragL url))) = false)
    (hdot : '.' ∈ stripSlashes (replaceAllL base [] (defragL url))) :
    runPyGetFilename base url = privGetFilename base url ∧
    runPyGetFilename base url =
      stripSlashes (replaceAllL base [] (defragL url)) ++ str ".md" := by
  have hs : sanitize (stripSlashes (replaceAllL base [] (defragL url))) =
      stripSlashes (replaceAllL base [] (defragL url)) := sanitize_id hsafe
  have hpriv : privGetFilename base url =
      stripSlashes (replaceAllL base [] (defragL url)) ++ str ".md" := by
    simp only [privGetFilename, hs]
    rw [if_neg hne]
    rw [if_neg (by rw [hmd]; simp)]
    rw [if_pos]
    rw [nameOfPath_of_no_slash]
    · exact hdot
    · intro hmem
      exact hsafe '/' hmem (by decide)
  have hrp : runPyGetFilename base url =
      stripSlashes (replaceAllL base [] (defragL url)) ++ str ".md" := by
    simp only [runPyGetFilename]
    rw [if_neg hne]
  exact ⟨hrp.trans hpriv.symm, hrp⟩

/-- C10 witness: the agreement conditions hold for a dotted page name, and
both variants produce `page.html.md`. -/
theorem c10_witness :
    runPyGetFilename baseEx (baseEx ++ str "/page.html") =
      privGetFilename baseEx (baseEx ++ str "/page.html") :=
  (c10_amended_theorem baseEx (baseEx ++ str "/page.html")
    (by decide) (by decide) (by decide) (by decide)).1

/-- Python `s.rsplit('#', 1)[0]`: everything before the last `#`, or `s`
itself when `#` does not occur. -/
def rsplitHashHead (s : Str) : Str :=
  if '#' ∈ s then ((s.reverse.dropWhile (fun c => c ≠ '#')).drop 1).reverse else s

/-- The `replacer` closure of `DocumentationCrawler._process_markdown_links`
(run.py:56-72), applied to one matched markdown link.  The regex pattern
`\[(.*?)\]\({base_url}(.*?)\)` matches only targets of the form
`base_url ++ link`, so every other link — external domains and
same-domain targets not prefixed by the base URL — is left unmodified by
`re.sub`; `link` is the matched suffix after the base URL.  `base_path` is
`urlparse(page_url).path.rsplit('#', 1)[0]` (the `rsplit` is vacuous, the
parsed path holding no `#`).  A suffix containing `#` whose part before
the first `#` equals `base_path`, or is empty, becomes a bare fragment
link; any other suffix becomes `.` ++ suffix, fragment included. -/
def runPyReplacer (pageUrl text link : Str) : Str :=
  if '#' ∈ link then
    if defragL link = rsplitHashHead (pathOf pageUrl) ∨ defragL link = [] then
      str "[" ++ text ++ str "](#" ++ fragOf link ++ str ")"
    else str "[" ++ text ++ str "](." ++ link ++ str ")"
  else str "[" ++ text ++ str "](." ++ link ++ str ")"

/-- C7 counterexample: both rewriters fail the claim as stated.
run-private.py's `replacer` checks only the domain, so a same-domain link
outside the base path is rewritten instead of being left
character-for-character unmodified.  run.py's `replacer` rewrites the
matched base-URL link `[x](https://docs.example.com/guide/c/d)` of the
page `.../guide/a/b` to `[x](./c/d)` — a dot plus the URL suffix — which
is not the relative filesystem path from the source document's directory
`a` to the target's derived output file `c/d.md` (both per run.py's own
`_get_filename`), namely `../c/d.md`. -/
theorem c7_counterexample :
    (netlocL (str "https://docs.example.com/other") = cfgNormEx.baseDomain ∧
     pfx cfgNormEx.baseUrl (str "https://docs.example.com/other") = false ∧
     privReplacer cfgNormEx [str "output_private"] baseEx (str "x")
        (str "https://docs.example.com/other") ≠
       str "[x](https://docs.example.com/other)") ∧
    (runPyReplacer (str "https://docs.example.com/guide/a/b") (str "x") (str "/c/d") =
       str "[x](./c/d)" ∧
     runPyGetFilename baseEx (baseEx ++ str "/c/d") = str "c/d.md" ∧
     relpathL (pathSplit (runPyGetFilename baseEx (baseEx ++ str "/c/d")))
        ((pathSplit (runPyGetFilename baseEx
          (str "https://docs.example.com/guide/a/b"))).dropLast) =
       str "../c/d.md" ∧
     str "[x](./c/d)" ≠ str "[x](../c/d.md)") := by
  decide

/-- C7 (amended): run-private.py's markdown link rewriter leaves a matched
link unmodified exactly when its host differs from the base domain; every
matched link on the base domain — whether or not it lies under the base
path — is rewritten to the relative filesystem path from the source
document's directory to the target's derived output file, preserving the
fragment, and walking that relative path from the source directory indeed
lands on the target's derived output file.  run.py's rewriter instead
matches only links prefixed by the base URL (leaving every other link,
external or same-domain off-prefix, unmodified) and rewrites a matched
suffix to a bare `#fragment` link when the suffix's path part is empty or
equals the page's URL path, and otherwise to `.` ++ suffix — a URL-path
suffix, not the relative path to the target's derived output file. -/
theorem c7_amended_theorem :
    (∀ (cfg : NormCfg) (outDir : List Str) (pageUrl text linkUrl : Str),
      netlocL linkUrl ≠ cfg.baseDomain →
      privReplacer cfg outDir pageUrl text linkUrl =
        str "[" ++ text ++ str "](" ++ linkUrl ++ str ")") ∧
    (∀ (cfg : NormCfg) (outDir : List Str) (pageUrl text linkUrl : Str),
      netlocL linkUrl = cfg.baseDomain →
      privReplacer cfg outDir pageUrl text linkUrl =
        str "[" ++ text ++ str "](" ++
          relpathL (outDir ++ pathSplit (privGetFilename cfg.baseUrl (defragL linkUrl)))
            (outDir ++ (pathSplit (privGetFilename cfg.baseUrl pageUrl)).dropLast) ++
          (if fragOf linkUrl ≠ [] then str "#" ++ fragOf linkUrl else []) ++ str ")") ∧
    (∀ target start : List Str, str ".." ∉ target →
      resolveRel start (relParts target start) = target) ∧
    (∀ (pageUrl text link : Str),
      '#' ∈ link →
      (defragL link = rsplitHashHead (pathOf pageUrl) ∨ defragL link = []) →
      runPyReplacer pageUrl text link =
        str "[" ++ text ++ str "](#" ++ fragOf link ++ str ")") ∧
    (∀ (pageUrl text link : Str),
      ('#' ∉ link ∨
        ¬(defragL link = rsplitHashHead (pathOf pageUrl) ∨ defragL link = [])) →
      runPyReplacer pageUrl text link =
        str "[" ++ text ++ str "](." ++ link ++ str ")") := by
  refine ⟨?_, ?_, ?_, ?_, ?_⟩
  · intro cfg outDir pageUrl text linkUrl h
    simp only [privReplacer]
    rw [if_pos h]
  · intro cfg outDir pageUrl text linkUrl h
    simp only [privReplacer]
    rw [if_neg (by simp [h])]
  · intro target start h
    exact resolveRel_relParts h
  · intro pageUrl text link hmem hpath
    simp only [runPyReplacer]
    rw [if_pos hmem, if_pos hpath]
  · intro pageUrl text link h
    simp only [runPyReplacer]
    rcases h with h | h
    · rw [if_neg h]
    · by_cases hmem : '#' ∈ link
      · rw [if_pos hmem, if_neg h]
      · rw [if_neg hmem]

/-- C7 witness: an external-domain link of the spec scenario is kept
verbatim. -/
theorem c7_witness :
    privReplacer cfgNormEx [str "output_private"] baseEx (str "x") (str "https://other.com/x") =
      str "[" ++ str "x" ++ str "](" ++ str "https://other.com/x" ++ str ")" :=
  c7_amended_theorem.1 cfgNormEx [str "output_private"] baseEx (str "x")
    (str "https://other.com/x") (by decide)

theorem retryGo_exn_step {fetch : Nat → FetchOutcome} {attempt : Nat} {m : Str}
    (delays : List Nat) (remaining : Nat)
    (hm : fetch attempt = FetchOutcome.exn m) (ht : isTransient m = true)
    (hr : 0 < remaining) :
    retryGo fetch (remaining + 1) attempt delays =
      retryGo fetch remaining (attempt + 1) (delays ++ [retryDelay * attempt]) := by
  rw [retryGo, hm]
  simp only [ht, if_true]
  rw [if_pos hr]

theorem retryGo_exn_last {fetch : Nat → FetchOutcome} {attempt : Nat} {m : Str}
    (delays : List Nat)
    (hm : fetch attempt = FetchOutcome.exn m) (ht : isTransient m = true) :
    retryGo fetch 1 attempt delays = RetryOut.abandonedTransient delays := by
  rw [show (1 : Nat) = 0 + 1 from rfl, retryGo, hm]
  simp only [ht, if_true]
  rw [if_neg (by omega)]

theorem privRetryFetch_allTransient {fetch : Nat → FetchOutcome}
    (h : ∀ a, 1 ≤ a → a ≤ maxRetries → ∃ m, fetch a = FetchOutcome.exn m ∧ isTransient m = true) :
    privRetryFetch fetch = RetryOut.abandonedTransient [retryDelay * 1, retryDelay * 2] := by
  obtain ⟨m1, hm1, ht1⟩ := h 1 (by omega) (by decide)
  obtain ⟨m2, hm2, ht2⟩ := h 2 (by omega) (by decide)
  obtain ⟨m3, hm3, ht3⟩ := h 3 (by omega) (by decide)
  have e1 : retryGo fetch (2 + 1) 1 [] = retryGo fetch 2 2 ([] ++ [retryDelay * 1]) :=
    retryGo_exn_step [] 2 hm1 ht1 (by omega)
  have e2 : retryGo fetch 2 2 ([] ++ [retryDelay * 1]) =
      retryGo fetch 1 3 (([] ++ [retryDelay * 1]) ++ [retryDelay * 2]) :=
    retryGo_exn_step _ 1 hm2 ht2 (by omega)
  have e3 : retryGo fetch 1 3 (([] ++ [retryDelay * 1]) ++ [retryDelay * 2]) =
      RetryOut.abandonedTransient (([] ++ [retryDelay * 1]) ++ [retryDelay * 2]) :=
    retryGo_exn_last _ hm3 ht3
  unfold privRetryFetch
  rw [show maxRetries = 2 + 1 from rfl, e1, e2, e3]
  simp

theorem privRetryFetch_nonTransient {fetch : Nat → FetchOutcome} {m : Str}
    (h1 : fetch 1 = FetchOutcome.exn m) (h2 : isTransient m = false) :
    privRetryFetch fetch = RetryOut.abandonedOther [] := by
  unfold privRetryFetch
  rw [show maxRetries = 2 + 1 from rfl, retryGo, h1]
  simp only [h2]
  simp

/-- C8: in run-private.py's `process_url`, a dispatched URL whose every
fetch attempt raises the transient browser-context signature is retried up
to the fixed bound of 3 attempts with linearly increasing backoff delays
`[2, 4]` seconds, after which the URL stays in the visited set (it was
marked at dispatch time), produces no output document, and is not
re-queued; and on a first non-transient exception no retry happens (no
backoff delay at all), with the same visited/no-document/not-requeued
state. -/
theorem c8_theorem (cfg : PConfig) (extract : Str → List Str) (fetch : Nat → FetchOutcome)
    (s : PState) (u : Str) (d : Nat)
    (hv : u ∉ s.visited) (hd : cfg.maxDepth = 0 ∨ d ≤ cfg.maxDepth) :
    ((∀ a, 1 ≤ a → a ≤ maxRetries →
        ∃ m, fetch a = FetchOutcome.exn m ∧ isTransient m = true) →
      (privProcessFetch cfg extract fetch s u d).2.2 = [retryDelay * 1, retryDelay * 2] ∧
      (privProcessFetch cfg extract fetch s u d).2.1 = false ∧
      u ∈ (privProcessFetch cfg extract fetch s u d).1.visited ∧
      u ∉ qkeys (privProcessFetch cfg extract fetch s u d).1.queue) ∧
    (∀ m, fetch 1 = FetchOutcome.exn m → isTransient m = false →
      (privProcessFetch cfg extract fetch s u d).2.2 = [] ∧
      (privProcessFetch cfg extract fetch s u d).2.1 = false ∧
      u ∈ (privProcessFetch cfg extract fetch s u d).1.visited ∧
      u ∉ qkeys (privProcessFetch cfg extract fetch s u d).1.queue) := by
  have hnd : ¬(0 < cfg.maxDepth ∧ cfg.maxDepth < d) := by
    rcases hd with hd | hd
    · omega
    · omega
  constructor
  · intro htrans
    have hr := privRetryFetch_allTransient htrans
    unfold privProcessFetch
    rw [if_neg hv, if_neg hnd, hr]
    refine ⟨rfl, rfl, ?_, ?_⟩
    · exact List.mem_cons_self u _
    · intro hmem
      exact (mem_qkeys_filter.mp hmem).2 rfl
  · intro m hm1 hmt
    have hr := privRetryFetch_nonTransient hm1 hmt
    unfold privProcessFetch
    rw [if_neg hv, if_neg hnd, hr]
    refine ⟨rfl, rfl, ?_, ?_⟩
    · exact List.mem_cons_self u _
    · intro hmem
      exact (mem_qkeys_filter.mp hmem).2 rfl

/-- A fetch capability whose every attempt raises the transient
browser-context exception. -/
def fetchTransW : Nat → FetchOutcome := fun _ => FetchOutcome.exn transientMsg

/-- A one-entry frontier about to dispatch its URL. -/
def stateW : PState := ⟨[], [(str "https://h/g", 1)]⟩

/-- C8 witness: the retry-exhaustion branch on a concrete always-transient
fetch capability — delays `[2, 4]`, no document, URL visited and not
re-queued. -/
theorem c8_witness :
    (privProcessFetch cfgRunW linksNone fetchTransW stateW (str "https://h/g") 1).2.2 =
      [retryDelay * 1, retryDelay * 2] ∧
    (privProcessFetch cfgRunW linksNone fetchTransW stateW (str "https://h/g") 1).2.1 = false ∧
    str "https://h/g" ∈
      (privProcessFetch cfgRunW linksNone fetchTransW stateW (str "https://h/g") 1).1.visited ∧
    str "https://h/g" ∉
      qkeys (privProcessFetch cfgRunW linksNone fetchTransW stateW (str "https://h/g") 1).1.queue :=
  (c8_theorem cfgRunW linksNone fetchTransW stateW (str "https://h/g") 1 (by decide)
    (Or.inl rfl)).1
    (fun a _ _ => ⟨transientMsg, rfl, by decide⟩)
